import Mathlib

/-!
# Verification of the oncosize lesion pipeline

Shallow embedding of the core of the repository: the lesion identity
resolver (`lesion_grouper.py`) and the evolution analyzer
(`data_analyzer.py`).  Python floats are modelled as exact rationals,
exam dates as integers of an abstract comparable time unit, pandas
DataFrames as lists of records, and Python dicts as Lean structures
(with `Option` for a possibly-empty dict / `None` value).  Fallible
code paths (a Python `UnboundLocalError`, an out-of-domain access)
are modelled with `Option`.
-/

namespace Oncosize

/-- A raw measurement record before coercion.  `dataExame = none` models a
null/unparsable date (dropped by `dropna`), `tamanhoCm = none` models a
non-numeric size coerced to NaN by `pd.to_numeric(errors='coerce')`
(also dropped). -/
structure RawRecord where
  lesaoId : String
  dataExame : Option Int
  tamanhoCm : Option ℚ
  tratamentos : List String
deriving DecidableEq, Repr

/-- A coerced measurement record (a row surviving `dropna`). -/
structure Record where
  lesaoId : String
  dataExame : Int
  tamanhoCm : ℚ
  tratamentos : List String
deriving DecidableEq, Repr

/-- The key order used by `df.sort_values(['lesao_id', 'data_exame'])`:
lexicographic on (lesion id, exam date). -/
def recLE (a b : Record) : Prop :=
  a.lesaoId < b.lesaoId ∨ (a.lesaoId = b.lesaoId ∧ a.dataExame ≤ b.dataExame)

instance : DecidableRel recLE := fun a b => by
  unfold recLE; infer_instance

instance : IsTotal Record recLE where
  total a b := by
    unfold recLE
    rcases lt_trichotomy a.lesaoId b.lesaoId with h | h | h
    · exact Or.inl (Or.inl h)
    · rcases le_total a.dataExame b.dataExame with h' | h'
      · exact Or.inl (Or.inr ⟨h, h'⟩)
      · exact Or.inr (Or.inr ⟨h.symm, h'⟩)
    · exact Or.inr (Or.inl h)

instance : IsTrans Record recLE where
  trans a b c hab hbc := by
    unfold recLE at *
    rcases hab with h1 | ⟨h1, h1'⟩
    · rcases hbc with h2 | ⟨h2, _⟩
      · exact Or.inl (h1.trans h2)
      · exact Or.inl (h2 ▸ h1)
    · rcases hbc with h2 | ⟨h2, h2'⟩
      · exact Or.inl (h1 ▸ h2)
      · exact Or.inr ⟨h1.trans h2, h1'.trans h2'⟩

/-- The order used by `lesion_data.sort_values('data_exame')`. -/
def dateLE (a b : Record) : Prop := a.dataExame ≤ b.dataExame

instance : DecidableRel dateLE := fun a b => by
  unfold dateLE; infer_instance

instance : IsTotal Record dateLE where
  total a b := le_total a.dataExame b.dataExame

instance : IsTrans Record dateLE where
  trans _ _ _ hab hbc := le_trans hab hbc

/-- Models `_prepare_dataframe`: coerce (drop rows with null date or non-numeric
size) and sort by `['lesao_id', 'data_exame']` (modelled as a stable sort,
matching the spec's stated tie policy). -/
def prepareDataframe (raw : List RawRecord) : List Record :=
  List.insertionSort recLE
    (raw.filterMap fun r =>
      match r.dataExame, r.tamanhoCm with
      | some d, some s => some ⟨r.lesaoId, d, s, r.tratamentos⟩
      | _, _ => none)

/-- Sort a lesion group by exam date (`sort_values('data_exame')`). -/
def sortByDate (l : List Record) : List Record :=
  List.insertionSort dateLE l

/-- Models `pandas.Series.unique`: the distinct values in first-appearance order. -/
def uniqueInOrder : List String → List String
  | [] => []
  | x :: xs => x :: uniqueInOrder (xs.filter fun y => y ≠ x)
termination_by l => l.length
decreasing_by
  exact Nat.lt_succ_of_le (List.length_filter_le _ _)

/-! ## Identity resolver (`lesion_grouper.py`) -/

/-- Is `pat` a contiguous substring of `hay` (Python's `in` on strings)? -/
def listPre : List Char → List Char → Bool
  | [], _ => true
  | _ :: _, [] => false
  | a :: as, b :: bs => a = b && listPre as bs

/-- Substring occurrence test over char lists. -/
def containsSub : List Char → List Char → Bool
  | [], pat => pat.isEmpty
  | h :: t, pat => listPre pat (h :: t) || containsSub t pat

/-- Python `str.lower`, restricted to ASCII and Latin-1 uppercase letters
(the only case-carrying characters relevant to the pipeline's keywords). -/
def charLowerPy (c : Char) : Char :=
  if ('A' ≤ c ∧ c ≤ 'Z') ∨ ('À' ≤ c ∧ c ≤ 'Ö') ∨ ('Ø' ≤ c ∧ c ≤ 'Þ') then
    Char.ofNat (c.toNat + 32)
  else c

/-- Lowercase a string, modelling Python `str.lower`. -/
def toLowerPy (s : String) : String :=
  String.mk (s.toList.map charLowerPy)

/-- The lesion-type vocabulary of `_get_canonical_name`'s regex
`(lesão|nódulo|metástase|tumor|massa)`. -/
def lesionKeywords : List String :=
  ["lesão", "nódulo", "metástase", "tumor", "massa"]

/-- Python regex `\s` (ASCII whitespace; exotic Unicode spaces not modelled). -/
def isWs (c : Char) : Bool :=
  c = ' ' || c = '\t' || c = '\n' || c = '\r' || c = '\x0b' || c = '\x0c'

/-- Regex `[a-z0-9]` on a lowercased string. -/
def isLowerAlnum (c : Char) : Bool :=
  ('a' ≤ c && c ≤ 'z') || ('0' ≤ c && c ≤ '9')

/-- After at least one whitespace char: skip further whitespace, then require
an `[a-z0-9]` char (regex `\s+[a-z0-9]` continuation). -/
def restAlnum : List Char → Bool
  | [] => false
  | c :: cs => if isWs c then restAlnum cs else isLowerAlnum c

/-- Regex fragment `\s+[a-z0-9]+` starting at this position. -/
def wsAlnum : List Char → Bool
  | [] => false
  | c :: cs => isWs c && restAlnum cs

/-- Does the regex `(lesão|nódulo|metástase|tumor|massa)\s+[a-z0-9]+` match
at the head of `cs`? -/
def matchAt (cs : List Char) : Bool :=
  lesionKeywords.any fun kw =>
    listPre kw.toList cs && wsAlnum (cs.drop kw.toList.length)

/-- Does `p` hold on some suffix of the list (models `re.search`)? -/
def anySuffix (p : List Char → Bool) : List Char → Bool
  | [] => p []
  | c :: cs => p (c :: cs) || anySuffix p cs

/-- Models `re.search(r'(lesão|nódulo|metástase|tumor|massa)\s+[a-z0-9]+', name.lower())`
as a Boolean: does the pattern occur anywhere in the lowercased name? -/
def matchesPattern (name : String) : Bool :=
  anySuffix matchAt (toLowerPy name).toList

/-- Python `min(group, key=len)`: first element of minimal length. -/
def minByLen : List String → Option String
  | [] => none
  | x :: xs =>
    some (xs.foldl (fun acc y => if y.length < acc.length then y else acc) x)

/-- Models `_get_canonical_name`: a singleton cluster keeps its member verbatim;
otherwise the first member matching the base-type-plus-identifier pattern;
otherwise the first member of minimal length. -/
def getCanonicalName (group : List String) : String :=
  if group.length = 1 then group.headD ""
  else
    match group.find? matchesPattern with
    | some n => n
    | none => (minByLen group).getD ""

/-- One step of the greedy clustering loop of `_create_lesion_mapping`:
append `x` to the first cluster whose first member `h` satisfies `sg x h`,
else start a new cluster at the end.  (An empty cluster never occurs; it is
skipped here to keep the function total.) -/
def assign (sg : String → String → Bool) : List (List String) → String → List (List String)
  | [], x => [[x]]
  | g :: rest, x =>
    match g with
    | [] => g :: assign sg rest x
    | h :: _ => if sg x h then (g ++ [x]) :: rest else g :: assign sg rest x

/-- The greedy single-pass clustering of `_create_lesion_mapping`,
parametrised by the grouping predicate `_should_group_together`. -/
def buildGroups (sg : String → String → Bool) (lesionNames : List String) : List (List String) :=
  lesionNames.foldl (assign sg) []

/-- Models `_create_lesion_mapping`: map every raw id to the canonical name of its
cluster (an association list modelling the Python dict, keys in the order
the dict is filled). -/
def createLesionMapping (sg : String → String → Bool) (lesionNames : List String) :
    List (String × String) :=
  (buildGroups sg lesionNames).flatMap fun g => g.map fun x => (x, getCanonicalName g)

/-! ## Evolution analyzer (`data_analyzer.py`) -/

/-- The fixed `variation_threshold = 10.0` of `DataAnalyzer.__init__`. -/
def variationThreshold : ℚ := 10

/-- The surgical keywords of `_determine_lesion_status`
(`['cirurgia', 'ressecção', 'remoção', 'excisão']`). -/
def surgicalKeywords : List String :=
  ["cirurgia", "ressecção", "remoção", "excisão"]

/-- Models `any(keyword in t.lower() for keyword in ...)` over all treatment strings
collected from the group's rows. -/
def hasSurgicalTreatment (lesionData : List Record) : Bool :=
  (lesionData.flatMap (·.tratamentos)).any fun t =>
    surgicalKeywords.any fun kw => containsSub (toLowerPy t).toList kw.toList

/-- The structured form of the status label string produced by
`_determine_lesion_status` (`Estável (…%)` / `Aumentou …%` /
`Reduziu …%`, the latter optionally qualified with
`(possível intervenção cirúrgica)`).  The float formatting of the
percentage is abstracted; the carried rational is the exact value. -/
inductive Status where
  | estavel (pct : ℚ)
  | aumentou (pct : ℚ)
  | reduziu (pct : ℚ) (surgical : Bool)
deriving DecidableEq, Repr

/-- Models `_determine_lesion_status`.  The local `surgical_treatments` is bound in
Python only when the group has more than one row; reaching the `Reduziu`
branch with a single-row group would raise `UnboundLocalError`, modelled
here as `none`. -/
def determineLesionStatus (variationPct : ℚ) (lesionData : List Record) : Option Status :=
  if |variationPct| ≤ variationThreshold then some (.estavel variationPct)
  else if variationPct > variationThreshold then some (.aumentou variationPct)
  else if lesionData.length > 1 then
    some (.reduziu variationPct (hasSurgicalTreatment lesionData))
  else none

/-- The result of `_calculate_trend_statistics`.  The Pearson correlation
`r = sxy / sqrt(sxx * syy)` is irrational in general, so it is carried in
the exact form `corrSign * sqrt corrAbsSq`: `corrSign` is the sign of `r`
and `corrAbsSq = r^2`; the degraded (NaN → 0) value is
`corrSign = 0, corrAbsSq = 0`. -/
structure TrendStats where
  trend : String
  slope : ℚ
  corrSign : Int
  corrAbsSq : ℚ
deriving DecidableEq, Repr

/-- Arithmetic mean of a nonempty list of rationals (`np.mean`). -/
def qMean (l : List ℚ) : ℚ := l.sum / l.length

/-- Centred sum of squares `np.sum((v - v.mean()) ** 2)`. -/
def centredSumSq (l : List ℚ) : ℚ :=
  (l.map fun v => (v - qMean l) ^ 2).sum

/-- Centred sum of products
`np.sum((x - x.mean()) * (y - y.mean()))`. -/
def centredSumProd (xs ys : List ℚ) : ℚ :=
  (List.zipWith (fun x y => (x - qMean xs) * (y - qMean ys)) xs ys).sum

/-- Models `_calculate_trend_statistics`: with fewer than 2 measurements return the
`Dados insuficientes` fallback; otherwise compute the centred sums of
squares/products of (numeric date, size), the OLS slope with a zero-denominator
guard, the Pearson correlation with NaN degraded to 0, and the
trend label from `|r| < 0.3` / `r > 0.3` / otherwise.  Exam dates enter as
abstract integer time units (an affine rescaling of the nanosecond encoding
used by `pd.to_numeric`, under which the correlation, the zero tests, and
the trend label are invariant; the slope is per abstract time unit). -/
def trendStats (lesionData : List Record) : TrendStats :=
  if lesionData.length < 2 then
    { trend := "Dados insuficientes", slope := 0, corrSign := 0, corrAbsSq := 0 }
  else
    let sorted := sortByDate lesionData
    let xs : List ℚ := sorted.map fun r => (r.dataExame : ℚ)
    let ys : List ℚ := sorted.map (·.tamanhoCm)
    let sxy : ℚ := centredSumProd xs ys
    let sxx : ℚ := centredSumSq xs
    let syy : ℚ := centredSumSq ys
    let slope : ℚ := if sxx ≠ 0 then sxy / sxx else 0
    let corrSign : Int := if sxx = 0 ∨ syy = 0 then 0 else Int.sign (sxy.num)
    let corrAbsSq : ℚ := if sxx = 0 ∨ syy = 0 then 0 else sxy ^ 2 / (sxx * syy)
    let trend :=
      if corrAbsSq < 9 / 100 then "Sem tendência clara"
      else if corrSign = 1 ∧ corrAbsSq > 9 / 100 then "Tendência de crescimento"
      else "Tendência de redução"
    { trend := trend, slope := slope, corrSign := corrSign, corrAbsSq := corrAbsSq }

/-- One row of the summary table built by `_analyze_single_lesion`
(dict keys `Lesão`, `Primeira Data`, …). -/
structure LesionSummary where
  lesao : String
  primeiraData : Int
  tamanhoInicial : ℚ
  ultimaData : Int
  tamanhoFinal : ℚ
  variacaoTotalPct : ℚ
  statusAtual : Option Status
  numeroMedicoes : Nat
  tendencia : String
  maiorTamanho : ℚ
  menorTamanho : ℚ
deriving DecidableEq, Repr

/-- Models `_analyze_single_lesion`: sort the group by date, take first/last,
compute the total variation with the `first_size > 0` guard, the status and
the trend.  An empty group (on which Python's `iloc[0]` would fail) yields
`none`; the analyzer only ever passes nonempty groups. -/
def analyzeSingleLesion (lesionData : List Record) : Option LesionSummary :=
  match sortByDate lesionData with
  | [] => none
  | first :: rest =>
    let sorted := first :: rest
    let last := sorted.getLast (List.cons_ne_nil _ _)
    let firstSize := first.tamanhoCm
    let lastSize := last.tamanhoCm
    let totalVariationAbs := lastSize - firstSize
    let totalVariationPct :=
      if firstSize > 0 then totalVariationAbs / firstSize * 100 else 0
    some
      { lesao := first.lesaoId
        primeiraData := first.dataExame
        tamanhoInicial := firstSize
        ultimaData := last.dataExame
        tamanhoFinal := lastSize
        variacaoTotalPct := totalVariationPct
        statusAtual := determineLesionStatus totalVariationPct sorted
        numeroMedicoes := sorted.length
        tendencia := (trendStats sorted).trend
        maiorTamanho := (rest.map (·.tamanhoCm)).foldl max firstSize
        menorTamanho := (rest.map (·.tamanhoCm)).foldl min firstSize }

/-- One row of the detailed timeline built by `_create_detailed_timeline`. -/
structure DetailedEntry where
  lesaoId : String
  dataExame : Int
  tamanhoCm : ℚ
  variacaoAbsoluta : Option ℚ
  variacaoPercentual : Option ℚ
  tratamentos : List String
deriving DecidableEq, Repr

/-- The body of the row loop of `_create_detailed_timeline`: look up the most
recent strictly-earlier-dated record in the date-sorted group `g` (the last
element of the filtered frame), guard division by a non-positive prior size. -/
def mkDetailedEntry (g : List Record) (row : Record) : DetailedEntry :=
  let pv : Option ℚ × Option ℚ :=
    if g.length > 1 then
      match (g.filter fun r => r.dataExame < row.dataExame).getLast? with
      | none => (none, none)
      | some prev =>
        let variationAbs := row.tamanhoCm - prev.tamanhoCm
        (some variationAbs,
          if prev.tamanhoCm > 0 then some (variationAbs / prev.tamanhoCm * 100) else none)
    else (none, none)
  { lesaoId := row.lesaoId
    dataExame := row.dataExame
    tamanhoCm := row.tamanhoCm
    variacaoAbsoluta := pv.1
    variacaoPercentual := pv.2
    tratamentos := row.tratamentos }

/-- Models `_create_detailed_timeline`: per lesion id (in `unique()` order of the
prepared frame), sort the group by date and emit one entry per row. -/
def createDetailedTimeline (df : List Record) : List DetailedEntry :=
  (uniqueInOrder (df.map (·.lesaoId))).flatMap fun lid =>
    let g := sortByDate (df.filter fun r => r.lesaoId = lid)
    g.map (mkDetailedEntry g)

/-- The dict built by `_calculate_overall_statistics` on a nonempty summary. -/
structure OverallStats where
  totalLesions : Nat
  increasingLesions : Nat
  decreasingLesions : Nat
  stableLesions : Nat
  averageVariationPct : ℚ
  maxIncreasePct : ℚ
  maxDecreasePct : ℚ
  mostIncreasedLesion : Option String
  mostDecreasedLesion : Option String
deriving DecidableEq, Repr

/-- Models `_calculate_overall_statistics`: `none` models the empty dict returned
for an empty summary; `idxmax`/`idxmin` (first row attaining the extremum)
are modelled with `find?`. -/
def calculateOverallStatistics (summary : List LesionSummary) : Option OverallStats :=
  match summary with
  | [] => none
  | s0 :: rest =>
    let all := s0 :: rest
    let vars := all.map (·.variacaoTotalPct)
    let total := all.length
    let increasing := (all.filter fun s => s.variacaoTotalPct > variationThreshold).length
    let decreasing := (all.filter fun s => s.variacaoTotalPct < -variationThreshold).length
    let maxInc := (rest.map (·.variacaoTotalPct)).foldl max s0.variacaoTotalPct
    let maxDec := (rest.map (·.variacaoTotalPct)).foldl min s0.variacaoTotalPct
    some
      { totalLesions := total
        increasingLesions := increasing
        decreasingLesions := decreasing
        stableLesions := total - increasing - decreasing
        averageVariationPct := qMean vars
        maxIncreasePct := maxInc
        maxDecreasePct := maxDec
        mostIncreasedLesion :=
          (all.find? fun s => s.variacaoTotalPct = maxInc).map (·.lesao)
        mostDecreasedLesion :=
          (all.find? fun s => s.variacaoTotalPct = maxDec).map (·.lesao) }

/-- The value returned by `analyze_lesion_evolution` (the timestamp field is
not modelled; `dateRange = none` models `{'start_date': None, 'end_date': None}`). -/
structure AnalysisResults where
  summaryTable : List LesionSummary
  detailedData : List DetailedEntry
  overallStatistics : Option OverallStats
  totalLesions : Nat
  totalMeasurements : Nat
  dateRange : Option (Int × Int)
deriving DecidableEq, Repr

/-- Models `_get_date_range` over the prepared frame. -/
def getDateRange (df : List Record) : Option (Int × Int) :=
  match df.map (·.dataExame) with
  | [] => none
  | d :: ds => some (ds.foldl min d, ds.foldl max d)

/-- Models `_empty_results`. -/
def emptyResults : AnalysisResults :=
  { summaryTable := []
    detailedData := []
    overallStatistics := none
    totalLesions := 0
    totalMeasurements := 0
    dateRange := none }

/-- Models `analyze_lesion_evolution`: empty input short-circuits to
`_empty_results`; otherwise prepare, build the detailed timeline, one
summary row per distinct lesion id of the prepared (sorted) frame, and the
aggregate statistics. -/
def analyze (raw : List RawRecord) : AnalysisResults :=
  if raw.isEmpty then emptyResults
  else
    let df := prepareDataframe raw
    let detailed := createDetailedTimeline df
    let summary :=
      (uniqueInOrder (df.map (·.lesaoId))).filterMap fun lid =>
        analyzeSingleLesion (df.filter fun r => r.lesaoId = lid)
    { summaryTable := summary
      detailedData := detailed
      overallStatistics := calculateOverallStatistics summary
      totalLesions := summary.length
      totalMeasurements := df.length
      dateRange := getDateRange df }

/-- Reading `increasing_lesions` out of the overall-statistics dict the way
the repository does (`stats.get('increasing_lesions', 0)`). -/
def statIncreasing (res : AnalysisResults) : Nat :=
  match res.overallStatistics with
  | none => 0
  | some s => s.increasingLesions

/-- Models `stats.get('decreasing_lesions', 0)`. -/
def statDecreasing (res : AnalysisResults) : Nat :=
  match res.overallStatistics with
  | none => 0
  | some s => s.decreasingLesions

/-- Models `stats.get('stable_lesions', 0)`. -/
def statStable (res : AnalysisResults) : Nat :=
  match res.overallStatistics with
  | none => 0
  | some s => s.stableLesions

/-- Well-formedness of a cluster list: every cluster is nonempty and each
non-first member was admitted by `should_group` against the first member. -/
def GroupsWF (sg : String → String → Bool) (gs : List (List String)) : Prop :=
  ∀ g ∈ gs, ∃ h t, g = h :: t ∧ ∀ y ∈ t, sg y h = true

/-! ## General list lemmas -/

theorem mem_uniqueInOrder (l : List String) (x : String) :
    x ∈ uniqueInOrder l ↔ x ∈ l := by
  induction l using uniqueInOrder.induct with
  | case1 => simp [uniqueInOrder]
  | case2 y ys ih =>
    rw [uniqueInOrder, List.mem_cons, List.mem_cons, ih, List.mem_filter]
    constructor
    · rintro (rfl | ⟨hx, _⟩)
      · exact Or.inl rfl
      · exact Or.inr hx
    · rintro (rfl | hx)
      · exact Or.inl rfl
      · by_cases hxy : x = y
        · exact Or.inl hxy
        · refine Or.inr ⟨hx, ?_⟩
          simpa using hxy

theorem pairwise_lt_uniqueInOrder (l : List String) (hl : l.Pairwise (· ≤ ·)) :
    (uniqueInOrder l).Pairwise (· < ·) := by
  induction l using uniqueInOrder.induct with
  | case1 => simp [uniqueInOrder]
  | case2 y ys ih =>
    rw [uniqueInOrder]
    rcases List.pairwise_cons.mp hl with ⟨hy, hys⟩
    refine List.pairwise_cons.mpr ⟨?_, ih (List.Pairwise.filter _ hys)⟩
    intro z hz
    have hz' := (mem_uniqueInOrder _ _).mp hz
    rcases List.mem_filter.mp hz' with ⟨hzys, hzy⟩
    have : z ≠ y := by simpa using hzy
    exact lt_of_le_of_ne (hy z hzys) (Ne.symm this)

theorem getLast?_mem {α : Type} : ∀ {l : List α} {p : α}, l.getLast? = some p → p ∈ l
  | [], _, h => by simp at h
  | [a], p, h => by
      simp only [List.getLast?_singleton, Option.some.injEq] at h
      simp [h]
  | a :: b :: t, p, h => by
      rw [List.getLast?_cons_cons] at h
      exact List.mem_cons_of_mem a (getLast?_mem h)

theorem pairwise_rel_getLast {α : Type} {R : α → α → Prop} :
    ∀ {l : List α} {p : α}, l.Pairwise R → l.getLast? = some p →
      ∀ q ∈ l, q = p ∨ R q p
  | [], _, _, h, _ => by simp at h
  | [a], p, _, h, q => by
      simp only [List.getLast?_singleton, Option.some.injEq] at h
      simp only [List.mem_singleton]
      rintro rfl
      exact Or.inl h
  | a :: b :: t, p, hpw, h, q => by
      rw [List.getLast?_cons_cons] at h
      rcases List.pairwise_cons.mp hpw with ⟨ha, hpw'⟩
      intro hq
      rcases List.mem_cons.mp hq with rfl | hq'
      · exact Or.inr (ha p (getLast?_mem h))
      · exact pairwise_rel_getLast hpw' h q hq'

theorem one_lt_length_of_two_mem {α : Type} {l : List α} {a b : α}
    (ha : a ∈ l) (hb : b ∈ l) (hab : a ≠ b) : 1 < l.length := by
  match l with
  | [] => simp at ha
  | [x] =>
    simp only [List.mem_singleton] at ha hb
    exact absurd (ha.trans hb.symm) hab
  | x :: y :: t => simp [Nat.succ_lt_succ]

theorem find?_eq_some_first {α : Type} {p : α → Bool} :
    ∀ {l : List α} {a : α}, l.find? p = some a →
      ∃ pre post, l = pre ++ a :: post ∧ p a = true ∧ ∀ x ∈ pre, p x = false
  | [], _, h => by simp at h
  | b :: t, a, h => by
      by_cases hb : p b = true
      · rw [List.find?_cons_of_pos _ hb] at h
        obtain rfl : b = a := by simpa using h
        exact ⟨[], t, rfl, hb, by simp⟩
      · rw [List.find?_cons_of_neg _ hb] at h
        obtain ⟨pre, post, hdec, hpa, hpre⟩ := find?_eq_some_first h
        refine ⟨b :: pre, post, by rw [hdec]; rfl, hpa, ?_⟩
        intro x hx
        rcases List.mem_cons.mp hx with rfl | hx'
        · simpa using hb
        · exact hpre x hx'

theorem find?_append_first {α : Type} {p : α → Bool} :
    ∀ (pre : List α) (n : α) (post : List α), p n = true →
      (∀ m ∈ pre, p m = false) → (pre ++ n :: post).find? p = some n
  | [], n, post, hn, _ => by simpa using List.find?_cons_of_pos post hn
  | b :: pre, n, post, hn, hpre => by
      have hb : ¬ p b = true := by
        simp [hpre b (List.mem_cons_self b pre)]
      rw [List.cons_append, List.find?_cons_of_neg _ hb]
      exact find?_append_first pre n post hn fun m hm =>
        hpre m (List.mem_cons_of_mem b hm)

theorem le_foldl_max {α : Type} [LinearOrder α] :
    ∀ (l : List α) (a x : α), x = a ∨ x ∈ l → x ≤ l.foldl max a
  | [], a, x, h => by
      rcases h with rfl | h
      · exact le_refl x
      · simp at h
  | b :: t, a, x, h => by
      have step : ∀ y, y = max a b ∨ y ∈ t → y ≤ (b :: t).foldl max a :=
        fun y hy => le_foldl_max t (max a b) y hy
      rcases h with rfl | h
      · exact le_trans (le_max_left x b) (step _ (Or.inl rfl))
      · rcases List.mem_cons.mp h with rfl | h'
        · exact le_trans (le_max_right a x) (step _ (Or.inl rfl))
        · exact step x (Or.inr h')

theorem foldl_max_mem {α : Type} [LinearOrder α] :
    ∀ (l : List α) (a : α), l.foldl max a = a ∨ l.foldl max a ∈ l
  | [], a => Or.inl rfl
  | b :: t, a => by
      rcases foldl_max_mem t (max a b) with h | h
      · rcases max_choice a b with hm | hm
        · exact Or.inl (by rw [List.foldl_cons, h, hm])
        · exact Or.inr (by rw [List.foldl_cons, h, hm]; exact List.mem_cons_self b t)
      · exact Or.inr (List.mem_cons_of_mem b h)

theorem foldl_min_le {α : Type} [LinearOrder α] :
    ∀ (l : List α) (a x : α), x = a ∨ x ∈ l → l.foldl min a ≤ x
  | [], a, x, h => by
      rcases h with rfl | h
      · exact le_refl x
      · simp at h
  | b :: t, a, x, h => by
      have step : ∀ y, y = min a b ∨ y ∈ t → (b :: t).foldl min a ≤ y :=
        fun y hy => foldl_min_le t (min a b) y hy
      rcases h with rfl | h
      · exact le_trans (step _ (Or.inl rfl)) (min_le_left x b)
      · rcases List.mem_cons.mp h with rfl | h'
        · exact le_trans (step _ (Or.inl rfl)) (min_le_right a x)
        · exact step x (Or.inr h')

theorem foldl_min_mem {α : Type} [LinearOrder α] :
    ∀ (l : List α) (a : α), l.foldl min a = a ∨ l.foldl min a ∈ l
  | [], a => Or.inl rfl
  | b :: t, a => by
      rcases foldl_min_mem t (min a b) with h | h
      · rcases min_choice a b with hm | hm
        · exact Or.inl (by rw [List.foldl_cons, h, hm])
        · exact Or.inr (by rw [List.foldl_cons, h, hm]; exact List.mem_cons_self b t)
      · exact Or.inr (List.mem_cons_of_mem b h)

/-! ## Substring and minimal-length lemmas -/

theorem listPre_iff : ∀ (p l : List Char), listPre p l = true ↔ p <+: l
  | [], l => by simp [listPre, List.nil_prefix]
  | a :: as, [] => by simp [listPre]
  | a :: as, b :: bs => by
      rw [listPre, List.cons_prefix_cons, Bool.and_eq_true, decide_eq_true_eq,
        listPre_iff as bs]

theorem containsSub_iff : ∀ (hay pat : List Char), containsSub hay pat = true ↔ pat <:+: hay
  | [], pat => by
      rw [containsSub, List.infix_nil, List.isEmpty_iff]
  | h :: t, pat => by
      rw [containsSub, Bool.or_eq_true, listPre_iff, containsSub_iff t pat,
        List.infix_cons_iff]

theorem foldl_minByLen_spec :
    ∀ (xs : List String) (x : String),
      (∃ pre post,
        x :: xs =
          pre ++ (xs.foldl (fun acc y => if y.length < acc.length then y else acc) x) :: post ∧
        ∀ m ∈ pre,
          (xs.foldl (fun acc y => if y.length < acc.length then y else acc) x).length <
            m.length) ∧
      ∀ m ∈ x :: xs,
        (xs.foldl (fun acc y => if y.length < acc.length then y else acc) x).length ≤
          m.length
  | [], x => by
      refine ⟨⟨[], [], rfl, by simp⟩, ?_⟩
      intro m hm
      rcases List.mem_singleton.mp hm with rfl
      exact le_refl _
  | y :: ys, x => by
      by_cases hy : y.length < x.length
      · have hstep : (y :: ys).foldl (fun acc y => if y.length < acc.length then y else acc) x =
            ys.foldl (fun acc y => if y.length < acc.length then y else acc) y := by
          simp [hy]
        obtain ⟨⟨pre, post, hdec, hpre⟩, hle⟩ := foldl_minByLen_spec ys y
        rw [hstep]
        set r := ys.foldl (fun acc y => if y.length < acc.length then y else acc) y with hr
        have hrx : r.length < x.length :=
          lt_of_le_of_lt (hle y (List.mem_cons_self y ys)) hy
        refine ⟨⟨x :: pre, post, by rw [List.cons_append, ← hdec], ?_⟩, ?_⟩
        · intro m hm
          rcases List.mem_cons.mp hm with rfl | hm'
          · exact hrx
          · exact hpre m hm'
        · intro m hm
          rcases List.mem_cons.mp hm with rfl | hm'
          · exact le_of_lt hrx
          · exact hle m hm'
      · have hstep : (y :: ys).foldl (fun acc y => if y.length < acc.length then y else acc) x =
            ys.foldl (fun acc y => if y.length < acc.length then y else acc) x := by
          simp [hy]
        obtain ⟨⟨pre, post, hdec, hpre⟩, hle⟩ := foldl_minByLen_spec ys x
        rw [hstep]
        set r := ys.foldl (fun acc y => if y.length < acc.length then y else acc) x with hr
        have hxy : x.length ≤ y.length := le_of_not_lt hy
        have hry : r.length ≤ y.length :=
          le_trans (hle x (List.mem_cons_self x ys)) hxy
        constructor
        · cases pre with
          | nil =>
            simp only [List.nil_append, List.cons_eq_cons] at hdec
            obtain ⟨hx, _⟩ := hdec
            exact ⟨[], y :: ys, by rw [List.nil_append, ← hx], by simp⟩
          | cons z pre' =>
            simp only [List.cons_append, List.cons_eq_cons] at hdec
            obtain ⟨hz, hys⟩ := hdec
            have hrx : r.length < x.length := by
              rw [hz]
              exact hpre z (List.mem_cons_self z pre')
            refine ⟨x :: y :: pre', post, by rw [hys]; rfl, ?_⟩
            intro m hm
            rcases List.mem_cons.mp hm with rfl | hm'
            · exact hrx
            rcases List.mem_cons.mp hm' with rfl | hm''
            · exact lt_of_lt_of_le hrx hxy
            · exact hpre m (List.mem_cons_of_mem z hm'')
        · intro m hm
          rcases List.mem_cons.mp hm with rfl | hm'
          · exact hle m (List.mem_cons_self m ys)
          rcases List.mem_cons.mp hm' with rfl | hm''
          · exact hry
          · exact hle m (List.mem_cons_of_mem x hm'')

/-! ## Resolver lemmas -/

theorem assign_flatten_perm (sg : String → String → Bool) :
    ∀ (gs : List (List String)) (x : String),
      (assign sg gs x).flatten.Perm (gs.flatten ++ [x])
  | [], x => by simp [assign]
  | g :: rest, x => by
      match g with
      | [] =>
        rw [assign]
        simpa using assign_flatten_perm sg rest x
      | h :: t =>
        rw [assign]
        by_cases hsg : sg x h
        · rw [if_pos hsg]
          simp only [List.flatten_cons, List.append_assoc]
          exact List.Perm.append_left (h :: t) List.perm_append_comm
        · rw [if_neg hsg]
          simp only [List.flatten_cons, List.append_assoc]
          exact List.Perm.append_left (h :: t) (assign_flatten_perm sg rest x)

theorem foldl_assign_flatten_perm (sg : String → String → Bool) :
    ∀ (l : List String) (acc : List (List String)),
      (l.foldl (assign sg) acc).flatten.Perm (acc.flatten ++ l)
  | [], acc => by simp
  | x :: xs, acc => by
      rw [List.foldl_cons]
      have h1 := foldl_assign_flatten_perm sg xs (assign sg acc x)
      have h2 : ((assign sg acc x).flatten ++ xs).Perm ((acc.flatten ++ [x]) ++ xs) :=
        List.Perm.append_right xs (assign_flatten_perm sg acc x)
      have h3 : (acc.flatten ++ [x]) ++ xs = acc.flatten ++ x :: xs := by
        rw [List.append_assoc]; rfl
      exact (h1.trans h2).trans (h3 ▸ List.Perm.refl _)

theorem buildGroups_flatten_perm (sg : String → String → Bool) (l : List String) :
    (buildGroups sg l).flatten.Perm l := by
  simpa using foldl_assign_flatten_perm sg l []

theorem assign_wf {sg : String → String → Bool} :
    ∀ {gs : List (List String)} (x : String), GroupsWF sg gs → GroupsWF sg (assign sg gs x)
  | [], x, _ => by
      intro g hg
      rw [assign] at hg
      rcases List.mem_singleton.mp hg with rfl
      exact ⟨x, [], rfl, by simp⟩
  | g₀ :: rest, x, hwf => by
      obtain ⟨h, t, hg₀, hmem⟩ := hwf g₀ (List.mem_cons_self _ _)
      subst hg₀
      rw [assign]
      by_cases hsg : sg x h
      · rw [if_pos hsg]
        intro g hg
        rcases List.mem_cons.mp hg with rfl | hg'
        · refine ⟨h, t ++ [x], rfl, ?_⟩
          intro y hy
          rcases List.mem_append.mp hy with hy' | hy'
          · exact hmem y hy'
          · rcases List.mem_singleton.mp hy' with rfl
            exact hsg
        · exact hwf g (List.mem_cons_of_mem _ hg')
      · rw [if_neg hsg]
        intro g hg
        rcases List.mem_cons.mp hg with rfl | hg'
        · exact ⟨h, t, rfl, hmem⟩
        · exact assign_wf x (fun g' hg'' => hwf g' (List.mem_cons_of_mem _ hg'')) g hg'

theorem foldl_assign_wf {sg : String → String → Bool} :
    ∀ (l : List String) {acc : List (List String)}, GroupsWF sg acc →
      GroupsWF sg (l.foldl (assign sg) acc)
  | [], _, hacc => hacc
  | x :: xs, acc, hacc => by
      rw [List.foldl_cons]
      exact foldl_assign_wf xs (assign_wf x hacc)

theorem buildGroups_wf (sg : String → String → Bool) (l : List String) :
    GroupsWF sg (buildGroups sg l) :=
  foldl_assign_wf l (fun g hg => by simp at hg)

theorem assign_no_match {sg : String → String → Bool} :
    ∀ {gs : List (List String)} (x : String),
      (∀ g ∈ gs, ∀ h t, g = h :: t → sg x h = false) →
      assign sg gs x = gs ++ [[x]]
  | [], x, _ => by rw [assign]; rfl
  | g₀ :: rest, x, hno => by
      match g₀ with
      | [] =>
        rw [assign, assign_no_match x
          (fun g hg h t ht => hno g (List.mem_cons_of_mem _ hg) h t ht)]
        rfl
      | h :: t =>
        rw [assign]
        have : sg x h = false := hno (h :: t) (List.mem_cons_self _ _) h t rfl
        rw [if_neg (by simp [this])]
        rw [assign_no_match x
          (fun g hg h' t' ht' => hno g (List.mem_cons_of_mem _ hg) h' t' ht')]
        rfl

theorem foldl_assign_singletons {sg : String → String → Bool} :
    ∀ (l : List String) (acc : List (List String)),
      (∀ x ∈ l, ∀ g ∈ acc, ∀ h t, g = h :: t → sg x h = false) →
      (∀ x ∈ l, ∀ y ∈ l, x ≠ y → sg x y = false) → l.Nodup →
      l.foldl (assign sg) acc = acc ++ l.map (fun x => [x])
  | [], acc, _, _, _ => by simp
  | x :: xs, acc, hacc, hns, hnd => by
      rw [List.foldl_cons,
        assign_no_match x (fun g hg h t ht => hacc x (List.mem_cons_self _ _) g hg h t ht)]
      rw [foldl_assign_singletons xs (acc ++ [[x]]) ?hacc ?hns ?hnd]
      · simp
      case hacc =>
        intro z hz g hg h t ht
        rcases List.mem_append.mp hg with hg' | hg'
        · exact hacc z (List.mem_cons_of_mem _ hz) g hg' h t ht
        · rcases List.mem_singleton.mp hg' with rfl
          rcases List.cons.injEq x [] h t ▸ ht with ht'
          have hx : h = x := by
            have := ht
            simp only [List.cons.injEq] at this
            exact this.1.symm
          subst hx
          have hzx : z ≠ h := by
            rintro rfl
            exact (List.nodup_cons.mp hnd).1 hz
          exact hns z (List.mem_cons_of_mem _ hz) h (List.mem_cons_self _ _) hzx
      case hns =>
        intro a ha b hb hab
        exact hns a (List.mem_cons_of_mem _ ha) b (List.mem_cons_of_mem _ hb) hab
      case hnd => exact (List.nodup_cons.mp hnd).2

/-! ## Analyzer lemmas -/

theorem sortByDate_perm (l : List Record) : (sortByDate l).Perm l :=
  List.perm_insertionSort dateLE l

theorem sortByDate_sorted (l : List Record) : (sortByDate l).Pairwise dateLE :=
  List.sorted_insertionSort dateLE l

theorem prepareDataframe_sorted (raw : List RawRecord) :
    (prepareDataframe raw).Pairwise recLE :=
  List.sorted_insertionSort recLE _

theorem sortByDate_eq_nil {l : List Record} (h : sortByDate l = []) : l = [] :=
  (h ▸ sortByDate_perm l).symm.eq_nil

/-- Membership characterization of the detailed timeline: every entry is the
entry of some row of the date-sorted group of its own lesion id. -/
theorem mem_createDetailedTimeline {df : List Record} {e : DetailedEntry}
    (he : e ∈ createDetailedTimeline df) :
    ∃ row, row ∈ sortByDate (df.filter fun r => r.lesaoId = row.lesaoId) ∧
      e = mkDetailedEntry (sortByDate (df.filter fun r => r.lesaoId = row.lesaoId)) row := by
  rw [createDetailedTimeline, List.mem_flatMap] at he
  obtain ⟨lid, _, he'⟩ := he
  rw [List.mem_map] at he'
  obtain ⟨row, hrow, he''⟩ := he'
  have hid : row.lesaoId = lid := by
    have hm := (sortByDate_perm _).mem_iff.mp hrow
    have := (List.mem_filter.mp hm).2
    simpa using this
  subst hid
  exact ⟨row, hrow, he''.symm⟩

theorem mkDetailedEntry_fields (g : List Record) (row : Record) :
    (mkDetailedEntry g row).lesaoId = row.lesaoId ∧
    (mkDetailedEntry g row).dataExame = row.dataExame ∧
    (mkDetailedEntry g row).tamanhoCm = row.tamanhoCm :=
  ⟨rfl, rfl, rfl⟩

/-- When the group holds no strictly-earlier-dated record, both variations
are null. -/
theorem mkDetailedEntry_no_prev {g : List Record} {row : Record}
    (h : ∀ r ∈ g, ¬ r.dataExame < row.dataExame) :
    (mkDetailedEntry g row).variacaoAbsoluta = none ∧
    (mkDetailedEntry g row).variacaoPercentual = none := by
  have hfl : (g.filter fun r => r.dataExame < row.dataExame) = [] := by
    rw [List.filter_eq_nil_iff]
    intro r hr
    simpa using h r hr
  by_cases hlen : g.length > 1
  · constructor <;> simp [mkDetailedEntry, hlen, hfl]
  · constructor <;> simp [mkDetailedEntry, hlen]

/-- When some strictly-earlier-dated record exists in the (date-sorted) group,
the variations are computed against a maximal-dated strictly-earlier record,
with the positive-prior-size division guard. -/
theorem mkDetailedEntry_prev {g : List Record} {row : Record}
    (hrow : row ∈ g) (hp : g.Pairwise dateLE)
    (hex : ∃ r ∈ g, r.dataExame < row.dataExame) :
    ∃ p ∈ g, p.dataExame < row.dataExame ∧
      (∀ q ∈ g, q.dataExame < row.dataExame → q.dataExame ≤ p.dataExame) ∧
      (mkDetailedEntry g row).variacaoAbsoluta = some (row.tamanhoCm - p.tamanhoCm) ∧
      (mkDetailedEntry g row).variacaoPercentual =
        if p.tamanhoCm > 0 then some ((row.tamanhoCm - p.tamanhoCm) / p.tamanhoCm * 100)
        else none := by
  obtain ⟨r₀, hr₀, hr₀lt⟩ := hex
  have hr₀f : r₀ ∈ g.filter fun r => r.dataExame < row.dataExame :=
    List.mem_filter.mpr ⟨hr₀, by simpa using hr₀lt⟩
  obtain ⟨p, hlast⟩ : ∃ p, (g.filter fun r => r.dataExame < row.dataExame).getLast? = some p := by
    cases hcase : (g.filter fun r => r.dataExame < row.dataExame).getLast? with
    | none =>
      rw [List.getLast?_eq_none_iff] at hcase
      rw [hcase] at hr₀f
      simp at hr₀f
    | some p => exact ⟨p, rfl⟩
  have hpf : p ∈ g.filter fun r => r.dataExame < row.dataExame := getLast?_mem hlast
  have hpg : p ∈ g := (List.mem_filter.mp hpf).1
  have hplt : p.dataExame < row.dataExame := by
    have := (List.mem_filter.mp hpf).2
    simpa using this
  have hlen : g.length > 1 :=
    one_lt_length_of_two_mem hpg hrow (fun hpr => absurd (hpr ▸ hplt) (lt_irrefl _))
  refine ⟨p, hpg, hplt, ?_, ?_, ?_⟩
  · intro q hq hqlt
    have hqf : q ∈ g.filter fun r => r.dataExame < row.dataExame :=
      List.mem_filter.mpr ⟨hq, by simpa using hqlt⟩
    rcases pairwise_rel_getLast (List.Pairwise.filter _ hp) hlast q hqf with rfl | hle
    · exact le_refl _
    · exact hle
  · simp [mkDetailedEntry, hlen, hlast]
  · simp [mkDetailedEntry, hlen, hlast]

/-- The explicit value of `analyzeSingleLesion` on a group whose date-sorted
form is known. -/
theorem analyzeSingleLesion_eq {g : List Record} {first : Record} {rest : List Record}
    (h : sortByDate g = first :: rest) :
    analyzeSingleLesion g = some
      { lesao := first.lesaoId
        primeiraData := first.dataExame
        tamanhoInicial := first.tamanhoCm
        ultimaData := ((first :: rest).getLast (List.cons_ne_nil _ _)).dataExame
        tamanhoFinal := ((first :: rest).getLast (List.cons_ne_nil _ _)).tamanhoCm
        variacaoTotalPct :=
          if first.tamanhoCm > 0 then
            (((first :: rest).getLast (List.cons_ne_nil _ _)).tamanhoCm - first.tamanhoCm)
              / first.tamanhoCm * 100
          else 0
        statusAtual :=
          determineLesionStatus
            (if first.tamanhoCm > 0 then
              (((first :: rest).getLast (List.cons_ne_nil _ _)).tamanhoCm - first.tamanhoCm)
                / first.tamanhoCm * 100
            else 0) (first :: rest)
        numeroMedicoes := (first :: rest).length
        tendencia := (trendStats (first :: rest)).trend
        maiorTamanho := (rest.map (·.tamanhoCm)).foldl max first.tamanhoCm
        menorTamanho := (rest.map (·.tamanhoCm)).foldl min first.tamanhoCm } := by
  rw [analyzeSingleLesion, h]

theorem qMean_const {l : List ℚ} {c : ℚ} (hne : l ≠ []) (hc : ∀ v ∈ l, v = c) :
    qMean l = c := by
  have hsum : l.sum = l.length • c := List.sum_eq_card_nsmul l c hc
  have hlen : (l.length : ℚ) ≠ 0 := by
    simpa using List.length_pos.mpr hne |>.ne'
  rw [qMean, hsum, nsmul_eq_mul]
  field_simp

theorem centredSumSq_const {l : List ℚ} {c : ℚ} (hne : l ≠ []) (hc : ∀ v ∈ l, v = c) :
    centredSumSq l = 0 := by
  rw [centredSumSq]
  apply List.sum_eq_zero
  intro x hx
  rw [List.mem_map] at hx
  obtain ⟨v, hv, rfl⟩ := hx
  rw [hc v hv, qMean_const hne hc, sub_self]
  ring

theorem createLesionMapping_keys (sg : String → String → Bool) (l : List String) :
    (createLesionMapping sg l).map Prod.fst = (buildGroups sg l).flatten := by
  rw [createLesionMapping, List.map_flatMap, ← List.flatMap_id (buildGroups sg l)]
  congr 1
  funext g
  rw [List.map_map]
  exact List.map_id g

theorem filterMap_map_lesao {F : String → Option LesionSummary} :
    ∀ (l : List String), (∀ lid ∈ l, ∃ s, F lid = some s ∧ s.lesao = lid) →
      ((l.filterMap F).map (·.lesao)) = l
  | [], _ => rfl
  | lid :: rest, h => by
      obtain ⟨s, hs, hlesao⟩ := h lid (List.mem_cons_self _ _)
      rw [List.filterMap_cons, hs, List.map_cons, hlesao,
        filterMap_map_lesao rest fun x hx => h x (List.mem_cons_of_mem _ hx)]

theorem summary_row_exists {df : List Record} {lid : String}
    (hlid : lid ∈ uniqueInOrder (df.map (·.lesaoId))) :
    ∃ s, analyzeSingleLesion (df.filter fun r => r.lesaoId = lid) = some s ∧
      s.lesao = lid := by
  have hlid' : lid ∈ df.map (·.lesaoId) := (mem_uniqueInOrder _ _).mp hlid
  rw [List.mem_map] at hlid'
  obtain ⟨r, hr, hrid⟩ := hlid'
  have hrf : r ∈ df.filter fun r => r.lesaoId = lid :=
    List.mem_filter.mpr ⟨hr, by simpa using hrid⟩
  cases hsort : sortByDate (df.filter fun r => r.lesaoId = lid) with
  | nil =>
    rw [sortByDate_eq_nil hsort] at hrf
    simp at hrf
  | cons first rest =>
    refine ⟨_, analyzeSingleLesion_eq hsort, ?_⟩
    have hfirst : first ∈ sortByDate (df.filter fun r => r.lesaoId = lid) := by
      rw [hsort]; exact List.mem_cons_self _ _
    have : first ∈ df.filter fun r => r.lesaoId = lid :=
      (sortByDate_perm _).mem_iff.mp hfirst
    have := (List.mem_filter.mp this).2
    simpa using this

theorem analyze_summaryTable_ids (raw : List RawRecord) :
    (analyze raw).summaryTable.map (·.lesao) =
      uniqueInOrder ((prepareDataframe raw).map (·.lesaoId)) := by
  by_cases h : raw.isEmpty
  · have : raw = [] := List.isEmpty_iff.mp h
    subst this
    simp [analyze, emptyResults, prepareDataframe, uniqueInOrder]
  · rw [analyze, if_neg h]
    exact filterMap_map_lesao _ fun lid hlid => summary_row_exists hlid

theorem analyze_stats_eq (raw : List RawRecord) :
    (analyze raw).overallStatistics =
      calculateOverallStatistics (analyze raw).summaryTable := by
  by_cases h : raw.isEmpty
  · rw [analyze, if_pos h]
    rfl
  · rw [analyze, if_neg h]

theorem recLE_lesaoId_le {a b : Record} (h : recLE a b) : a.lesaoId ≤ b.lesaoId := by
  rcases h with h | ⟨h, _⟩
  · exact le_of_lt h
  · exact le_of_eq h

/-! ## Claim theorems -/

/-- C2: for an empty input record sequence, and likewise whenever every
record is dropped by coercion, `analyze` returns a fully-defined
empty-results structure: empty summary and detailed sequences, aggregate
increasing/decreasing/stable counts all zero (the empty statistics dict read
with default 0), and a null date range — with no error path. -/
theorem analyze_empty_input_defined (raw : List RawRecord)
    (h : prepareDataframe raw = []) :
    (analyze raw).summaryTable = [] ∧ (analyze raw).detailedData = [] ∧
    (analyze raw).overallStatistics = none ∧
    statIncreasing (analyze raw) = 0 ∧ statDecreasing (analyze raw) = 0 ∧
    statStable (analyze raw) = 0 ∧ (analyze raw).dateRange = none := by
  by_cases he : raw.isEmpty
  · rw [analyze, if_pos he]
    exact ⟨rfl, rfl, rfl, rfl, rfl, rfl, rfl⟩
  · rw [analyze, if_neg he]
    refine ⟨?_, ?_, ?_, ?_, ?_, ?_, ?_⟩ <;>
      simp [h, statIncreasing, statDecreasing, statStable, createDetailedTimeline,
        uniqueInOrder, getDateRange, calculateOverallStatistics]

/-- Witness for C2: a single record whose date fails coercion is dropped,
and the analysis is the defined empty structure. -/
theorem analyze_empty_input_defined_witness :
    prepareDataframe [(⟨"Lesão A", none, some 1, []⟩ : RawRecord)] = [] ∧
    ((analyze [(⟨"Lesão A", none, some 1, []⟩ : RawRecord)]).summaryTable = [] ∧
      (analyze [(⟨"Lesão A", none, some 1, []⟩ : RawRecord)]).detailedData = [] ∧
      (analyze [(⟨"Lesão A", none, some 1, []⟩ : RawRecord)]).overallStatistics = none ∧
      statIncreasing (analyze [(⟨"Lesão A", none, some 1, []⟩ : RawRecord)]) = 0 ∧
      statDecreasing (analyze [(⟨"Lesão A", none, some 1, []⟩ : RawRecord)]) = 0 ∧
      statStable (analyze [(⟨"Lesão A", none, some 1, []⟩ : RawRecord)]) = 0 ∧
      (analyze [(⟨"Lesão A", none, some 1, []⟩ : RawRecord)]).dateRange = none) :=
  ⟨rfl, analyze_empty_input_defined _ rfl⟩

/-- C3: the status label uses the fixed threshold 10.0 with an inclusive
stable band (`|v| ≤ 10` is Stable, so exactly ±10.0 are Stable), `v > 10`
is Increased, `v < -10` is Decreased, and the surgical qualifier flag is set
exactly when some treatment string of the lesion contains a surgical keyword
as a case-insensitive substring. -/
theorem lesion_status_classification (v : ℚ) (ld : List Record) :
    (|v| ≤ 10 → determineLesionStatus v ld = some (.estavel v)) ∧
    (v > 10 → determineLesionStatus v ld = some (.aumentou v)) ∧
    (v < -10 → 2 ≤ ld.length →
      determineLesionStatus v ld = some (.reduziu v (hasSurgicalTreatment ld))) ∧
    (hasSurgicalTreatment ld = true ↔
      ∃ r ∈ ld, ∃ t ∈ r.tratamentos, ∃ kw ∈ surgicalKeywords,
        kw.toList <:+: (toLowerPy t).toList) := by
  refine ⟨?_, ?_, ?_, ?_⟩
  · intro h
    rw [determineLesionStatus, if_pos (show |v| ≤ variationThreshold from h)]
  · intro h
    have h1 : ¬ |v| ≤ variationThreshold :=
      not_le.mpr (lt_of_lt_of_le h (le_abs_self v))
    rw [determineLesionStatus, if_neg h1,
      if_pos (show v > variationThreshold from h)]
  · intro h hlen
    have h1 : ¬ |v| ≤ variationThreshold := by
      apply not_le.mpr
      calc (variationThreshold : ℚ) = 10 := rfl
        _ < -v := by linarith
        _ ≤ |v| := neg_le_abs v
    have h2 : ¬ v > variationThreshold := by
      apply not_lt.mpr
      calc v ≤ -10 := le_of_lt h
        _ ≤ variationThreshold := by norm_num [variationThreshold]
    have h3 : ld.length > 1 := hlen
    rw [determineLesionStatus, if_neg h1, if_neg h2, if_pos h3]
  · rw [hasSurgicalTreatment, List.any_eq_true]
    constructor
    · rintro ⟨t, ht, hany⟩
      rw [List.any_eq_true] at hany
      obtain ⟨kw, hkw, hsub⟩ := hany
      rw [List.mem_flatMap] at ht
      obtain ⟨r, hr, htr⟩ := ht
      exact ⟨r, hr, t, htr, kw, hkw, (containsSub_iff _ _).mp hsub⟩
    · rintro ⟨r, hr, t, ht, kw, hkw, hsub⟩
      refine ⟨t, List.mem_flatMap.mpr ⟨r, hr, ht⟩, List.any_eq_true.mpr ?_⟩
      exact ⟨kw, hkw, (containsSub_iff _ _).mpr hsub⟩

/-- Witness for C3: a −20 % variation on a two-record group with a surgical
treatment takes the Decreased branch with the surgical qualifier set. -/
theorem lesion_status_classification_witness :
    determineLesionStatus (-20)
      [(⟨"Lesão A", 0, 3, ["Cirurgia de ressecção"]⟩ : Record),
        (⟨"Lesão A", 1, 1, []⟩ : Record)] = some (.reduziu (-20) true) := by
  have h := (lesion_status_classification (-20)
    [(⟨"Lesão A", 0, 3, ["Cirurgia de ressecção"]⟩ : Record),
      (⟨"Lesão A", 1, 1, []⟩ : Record)]).2.2.1 (by norm_num) (by norm_num)
  exact h.trans (by decide)

/-- C9: resolving an already-canonical id list (pairwise distinct, no pair
accepted by `should_group`) maps every id to itself. -/
theorem resolver_idempotent_on_canonical (sg : String → String → Bool) (l : List String)
    (hnd : l.Nodup) (hns : ∀ x ∈ l, ∀ y ∈ l, x ≠ y → sg x y = false) :
    createLesionMapping sg l = l.map fun x => (x, x) := by
  have hgroups : buildGroups sg l = l.map fun x => [x] := by
    rw [buildGroups]
    have h := foldl_assign_singletons l [] (by simp) hns hnd
    simpa using h
  have hflat : ∀ (m : List String),
      ((m.map fun x => [x]).flatMap fun g => g.map fun y => (y, getCanonicalName g)) =
        m.map fun x => (x, x) := by
    intro m
    induction m with
    | nil => rfl
    | cons a t ih =>
      rw [List.map_cons, List.flatMap_cons, ih]
      have hc : getCanonicalName [a] = a := by
        rw [getCanonicalName, if_pos (by rfl)]
        rfl
      rw [List.map_singleton, hc]
      rfl
  rw [createLesionMapping, hgroups, hflat]

/-- Witness for C9: two dissimilar ids each map to themselves. -/
theorem resolver_idempotent_on_canonical_witness :
    createLesionMapping (fun _ _ => false) ["Lesão A", "Nódulo B"] =
      [("Lesão A", "Lesão A"), ("Nódulo B", "Nódulo B")] :=
  (resolver_idempotent_on_canonical (fun _ _ => false) ["Lesão A", "Nódulo B"]
    (by decide) (by intro x _ y _ _; rfl)).trans (by rfl)

/-- C5: the trend computation is total: fewer than 2 measurements yields the
"insufficient data" fallback with zero slope and correlation, and a NaN
correlation (constant sizes) degrades to correlation 0 with the "no clear
trend" label instead of an error. -/
theorem trend_insufficient_and_nan_fallback (g : List Record) :
    (g.length < 2 →
      trendStats g =
        { trend := "Dados insuficientes", slope := 0, corrSign := 0, corrAbsSq := 0 }) ∧
    (2 ≤ g.length → ∀ c, (∀ r ∈ g, r.tamanhoCm = c) →
      (trendStats g).corrSign = 0 ∧ (trendStats g).corrAbsSq = 0 ∧
      (trendStats g).trend = "Sem tendência clara") := by
  constructor
  · intro h
    rw [trendStats, if_pos h]
  · intro hlen c hc
    have hnlt : ¬ g.length < 2 := not_lt.mpr hlen
    have hne : (sortByDate g).map (·.tamanhoCm) ≠ [] := by
      intro hmap
      have h0 := sortByDate_eq_nil (List.map_eq_nil_iff.mp hmap)
      rw [h0] at hlen
      simp at hlen
    have hconst : ∀ v ∈ (sortByDate g).map (·.tamanhoCm), v = c := by
      intro v hv
      rw [List.mem_map] at hv
      obtain ⟨r, hr, rfl⟩ := hv
      exact hc r ((sortByDate_perm g).mem_iff.mp hr)
    have hsyy := centredSumSq_const hne hconst
    rw [trendStats, if_neg hnlt]
    refine ⟨?_, ?_, ?_⟩ <;> simp [hsyy]

/-- Witness for C5: a singleton group falls back to "insufficient data", and
a two-record constant-size group degrades its NaN correlation to zero. -/
theorem trend_insufficient_and_nan_fallback_witness :
    trendStats [(⟨"Lesão A", 0, 2, []⟩ : Record)] =
      { trend := "Dados insuficientes", slope := 0, corrSign := 0, corrAbsSq := 0 } ∧
    ((trendStats [(⟨"Lesão A", 0, 2, []⟩ : Record), (⟨"Lesão A", 1, 2, []⟩ : Record)]).corrSign = 0 ∧
      (trendStats [(⟨"Lesão A", 0, 2, []⟩ : Record), (⟨"Lesão A", 1, 2, []⟩ : Record)]).corrAbsSq = 0 ∧
      (trendStats [(⟨"Lesão A", 0, 2, []⟩ : Record), (⟨"Lesão A", 1, 2, []⟩ : Record)]).trend =
        "Sem tendência clara") :=
  ⟨(trend_insufficient_and_nan_fallback [(⟨"Lesão A", 0, 2, []⟩ : Record)]).1 (by norm_num),
    (trend_insufficient_and_nan_fallback
      [(⟨"Lesão A", 0, 2, []⟩ : Record), (⟨"Lesão A", 1, 2, []⟩ : Record)]).2 (by norm_num) 2
      (by decide)⟩

/-- C10: for every nonempty lesion group, the status computation is defined
(no `UnboundLocalError`): a single-record group always has total variation 0
and takes the Stable branch, so the only branch reading the conditionally
bound surgical-treatments variable is unreachable for it. -/
theorem status_defined_for_nonempty_groups (g : List Record) (hne : g ≠ []) :
    ∃ s, analyzeSingleLesion g = some s ∧ s.statusAtual.isSome = true ∧
      (g.length = 1 → s.variacaoTotalPct = 0 ∧ s.statusAtual = some (.estavel 0)) := by
  have hsome : ∀ (v : ℚ) (ld : List Record), |v| ≤ 10 ∨ 1 < ld.length →
      (determineLesionStatus v ld).isSome = true := by
    intro v ld h
    rw [determineLesionStatus]
    split_ifs with h1 h2 h3
    · rfl
    · rfl
    · rfl
    · rcases h with h | h
      · exact absurd h h1
      · exact absurd h h3
  cases hsort : sortByDate g with
  | nil => exact absurd (sortByDate_eq_nil hsort) hne
  | cons first rest =>
    have hlen : (first :: rest).length = g.length := by
      rw [← hsort]
      exact (sortByDate_perm g).length_eq
    cases rest with
    | nil =>
      have hv : (if first.tamanhoCm > 0 then
          (([first].getLast (List.cons_ne_nil _ _)).tamanhoCm - first.tamanhoCm)
            / first.tamanhoCm * 100
        else 0) = 0 := by
        rw [List.getLast_singleton]
        split_ifs <;> simp
      refine ⟨_, analyzeSingleLesion_eq hsort, ?_, ?_⟩
      · show (determineLesionStatus _ [first]).isSome = true
        apply hsome
        left
        rw [hv]
        norm_num
      · intro _
        constructor
        · show (if first.tamanhoCm > 0 then _ else 0) = 0
          exact hv
        · show determineLesionStatus _ [first] = some (.estavel 0)
          rw [hv, determineLesionStatus, if_pos (by norm_num [variationThreshold])]
    | cons second rest' =>
      refine ⟨_, analyzeSingleLesion_eq hsort, ?_, ?_⟩
      · apply hsome
        right
        simp
      · intro h1
        rw [← hlen] at h1
        simp at h1

/-- Witness for C10: a concrete single-record group gets a defined Stable
status. -/
theorem status_defined_for_nonempty_groups_witness :
    ∃ s, analyzeSingleLesion [(⟨"Lesão A", 0, 3, []⟩ : Record)] = some s ∧
      s.statusAtual.isSome = true ∧
      ([(⟨"Lesão A", 0, 3, []⟩ : Record)].length = 1 →
        s.variacaoTotalPct = 0 ∧ s.statusAtual = some (.estavel 0)) :=
  status_defined_for_nonempty_groups [(⟨"Lesão A", 0, 3, []⟩ : Record)] (by decide)

/-- C6: the resolver's mapping is total (every raw id appears as a key,
exactly once, for a duplicate-free input), the clusters partition the input
(their members are pairwise disjoint and jointly a permutation of the
input), and every non-first cluster member was admitted by `should_group`
against the cluster's first member. -/
theorem resolver_total_partition_greedy (sg : String → String → Bool) (l : List String)
    (hnd : l.Nodup) :
    ((createLesionMapping sg l).map Prod.fst).Perm l ∧
    ((createLesionMapping sg l).map Prod.fst).Nodup ∧
    (∀ g ∈ buildGroups sg l, ∃ h t, g = h :: t ∧ ∀ y ∈ t, sg y h = true) ∧
    List.Pairwise List.Disjoint (buildGroups sg l) := by
  have hkeys := createLesionMapping_keys sg l
  have hperm : ((createLesionMapping sg l).map Prod.fst).Perm l := by
    rw [hkeys]
    exact buildGroups_flatten_perm sg l
  have hnodup : ((createLesionMapping sg l).map Prod.fst).Nodup :=
    hperm.nodup_iff.mpr hnd
  refine ⟨hperm, hnodup, buildGroups_wf sg l, ?_⟩
  have hfn : (buildGroups sg l).flatten.Nodup := by
    rw [hkeys] at hnodup
    exact hnodup
  exact (List.nodup_flatten.mp hfn).2

/-- Witness for C6: a concrete length-based grouping predicate on three ids. -/
theorem resolver_total_partition_greedy_witness :
    ((createLesionMapping (fun a b => a.length == b.length) ["aa", "b", "cc"]).map
        Prod.fst).Perm ["aa", "b", "cc"] ∧
    ((createLesionMapping (fun a b => a.length == b.length) ["aa", "b", "cc"]).map
        Prod.fst).Nodup ∧
    (∀ g ∈ buildGroups (fun a b => a.length == b.length) ["aa", "b", "cc"],
      ∃ h t, g = h :: t ∧ ∀ y ∈ t, (fun a b : String => a.length == b.length) y h = true) ∧
    List.Pairwise List.Disjoint (buildGroups (fun a b => a.length == b.length) ["aa", "b", "cc"]) :=
  resolver_total_partition_greedy (fun a b => a.length == b.length) ["aa", "b", "cc"]
    (by decide)

/-- C7: the canonical name of a singleton cluster is its member verbatim;
otherwise it is the first member matching the base-type-plus-identifier
pattern; if none matches, it is the first member of minimal length (Python
`min(group, key=len)`, ties broken by original order). -/
theorem canonical_name_selection (g : List String) :
    (∀ x, g = [x] → getCanonicalName g = x) ∧
    (∀ pre n post, 2 ≤ g.length → g = pre ++ n :: post → matchesPattern n = true →
      (∀ m ∈ pre, matchesPattern m = false) → getCanonicalName g = n) ∧
    ((∀ m ∈ g, matchesPattern m = false) → 2 ≤ g.length →
      ∃ pre post, g = pre ++ getCanonicalName g :: post ∧
        (∀ m ∈ g, (getCanonicalName g).length ≤ m.length) ∧
        (∀ m ∈ pre, (getCanonicalName g).length < m.length)) := by
  refine ⟨?_, ?_, ?_⟩
  · rintro x rfl
    simp [getCanonicalName]
  · intro pre n post hlen hdec hn hpre
    have h1 : ¬ g.length = 1 := by omega
    have hfind : g.find? matchesPattern = some n := by
      rw [hdec]
      exact find?_append_first pre n post hn hpre
    rw [getCanonicalName, if_neg h1, hfind]
  · intro hall hlen
    have h1 : ¬ g.length = 1 := by omega
    have hfind : g.find? matchesPattern = none :=
      List.find?_eq_none.mpr fun x hx => by simp [hall x hx]
    have hname : getCanonicalName g = (minByLen g).getD "" := by
      rw [getCanonicalName, if_neg h1, hfind]
    rw [hname]
    cases g with
    | nil => simp at hlen
    | cons x xs =>
      obtain ⟨⟨pre, post, hdec, hpre⟩, hle⟩ := foldl_minByLen_spec xs x
      rw [minByLen]
      simp only [Option.getD_some]
      exact ⟨pre, post, hdec, hle, hpre⟩

/-- Witness for C7: in a multi-member cluster the first pattern-matching
member is chosen, skipping a non-matching earlier member. -/
theorem canonical_name_selection_witness :
    getCanonicalName ["xx", "Lesão A", "b"] = "Lesão A" :=
  (canonical_name_selection ["xx", "Lesão A", "b"]).2.1 ["xx"] "Lesão A" ["b"]
    (by norm_num) rfl (by decide) (by decide)

/-- C4: every detailed-timeline entry computes its variation against the
most recent same-lesion record with a strictly smaller exam date (not the
previous row index), and an entry with no strictly-earlier-dated same-lesion
record has null absolute and percentage variation. -/
theorem detailed_variation_vs_nearest_earlier (df : List Record) (e : DetailedEntry)
    (he : e ∈ createDetailedTimeline df) :
    ((∀ r ∈ df, r.lesaoId = e.lesaoId → ¬ r.dataExame < e.dataExame) →
      e.variacaoAbsoluta = none ∧ e.variacaoPercentual = none) ∧
    ((∃ r ∈ df, r.lesaoId = e.lesaoId ∧ r.dataExame < e.dataExame) →
      ∃ p ∈ df, p.lesaoId = e.lesaoId ∧ p.dataExame < e.dataExame ∧
        (∀ q ∈ df, q.lesaoId = e.lesaoId → q.dataExame < e.dataExame →
          q.dataExame ≤ p.dataExame) ∧
        e.variacaoAbsoluta = some (e.tamanhoCm - p.tamanhoCm) ∧
        e.variacaoPercentual =
          (if p.tamanhoCm > 0 then some ((e.tamanhoCm - p.tamanhoCm) / p.tamanhoCm * 100)
          else none)) := by
  obtain ⟨row, hrow, rfl⟩ := mem_createDetailedTimeline he
  have hlid : (mkDetailedEntry (sortByDate (df.filter fun r => r.lesaoId = row.lesaoId)) row).lesaoId
      = row.lesaoId := rfl
  have hdata : (mkDetailedEntry (sortByDate (df.filter fun r => r.lesaoId = row.lesaoId)) row).dataExame
      = row.dataExame := rfl
  have htam : (mkDetailedEntry (sortByDate (df.filter fun r => r.lesaoId = row.lesaoId)) row).tamanhoCm
      = row.tamanhoCm := rfl
  rw [hlid, hdata, htam]
  have hmemG : ∀ r : Record,
      r ∈ sortByDate (df.filter fun r => r.lesaoId = row.lesaoId) ↔
        r ∈ df ∧ r.lesaoId = row.lesaoId := by
    intro r
    rw [(sortByDate_perm _).mem_iff, List.mem_filter]
    simp
  constructor
  · intro h
    apply mkDetailedEntry_no_prev
    intro r hrG
    obtain ⟨hrdf, hrid⟩ := (hmemG r).mp hrG
    exact h r hrdf hrid
  · rintro ⟨r, hrdf, hrid, hrlt⟩
    have hex : ∃ q ∈ sortByDate (df.filter fun r => r.lesaoId = row.lesaoId),
        q.dataExame < row.dataExame := ⟨r, (hmemG r).mpr ⟨hrdf, hrid⟩, hrlt⟩
    obtain ⟨p, hpG, hplt, hpmax, habs, hpct⟩ :=
      mkDetailedEntry_prev hrow (sortByDate_sorted _) hex
    obtain ⟨hpdf, hpid⟩ := (hmemG p).mp hpG
    refine ⟨p, hpdf, hpid, hplt, ?_, habs, hpct⟩
    intro q hqdf hqid hqlt
    exact hpmax q ((hmemG q).mpr ⟨hqdf, hqid⟩) hqlt

/-- Witness for C4: the second entry of a two-measurement lesion carries the
variation against the earlier record. -/
theorem detailed_variation_vs_nearest_earlier_witness :
    ((∀ r ∈ [(⟨"Lesão A", 0, 1, []⟩ : Record), (⟨"Lesão A", 1, 2, []⟩ : Record)],
        r.lesaoId = "Lesão A" → ¬ r.dataExame < 1) →
      (some (1 : ℚ) : Option ℚ) = none ∧ (some (100 : ℚ) : Option ℚ) = none) ∧
    ((∃ r ∈ [(⟨"Lesão A", 0, 1, []⟩ : Record), (⟨"Lesão A", 1, 2, []⟩ : Record)],
        r.lesaoId = "Lesão A" ∧ r.dataExame < 1) →
      ∃ p ∈ [(⟨"Lesão A", 0, 1, []⟩ : Record), (⟨"Lesão A", 1, 2, []⟩ : Record)],
        p.lesaoId = "Lesão A" ∧ p.dataExame < 1 ∧
        (∀ q ∈ [(⟨"Lesão A", 0, 1, []⟩ : Record), (⟨"Lesão A", 1, 2, []⟩ : Record)],
          q.lesaoId = "Lesão A" → q.dataExame < 1 → q.dataExame ≤ p.dataExame) ∧
        (some (1 : ℚ) : Option ℚ) = some ((2 : ℚ) - p.tamanhoCm) ∧
        (some (100 : ℚ) : Option ℚ) =
          (if p.tamanhoCm > 0 then some (((2 : ℚ) - p.tamanhoCm) / p.tamanhoCm * 100)
          else none)) :=
  detailed_variation_vs_nearest_earlier
    [(⟨"Lesão A", 0, 1, []⟩ : Record), (⟨"Lesão A", 1, 2, []⟩ : Record)]
    (⟨"Lesão A", 1, 2, some 1, some 100, []⟩ : DetailedEntry)
    (by
      have h : createDetailedTimeline
          [(⟨"Lesão A", 0, 1, []⟩ : Record), (⟨"Lesão A", 1, 2, []⟩ : Record)] =
          [⟨"Lesão A", 0, 1, none, none, []⟩, ⟨"Lesão A", 1, 2, some 1, some 100, []⟩] := by
        norm_num [createDetailedTimeline, uniqueInOrder, sortByDate, List.insertionSort,
          List.orderedInsert, mkDetailedEntry, dateLE, List.filter]
      rw [h]
      simp)

/-- C8: division by zero is guarded everywhere percentages are computed: the
per-lesion total variation is `(last − first)/first·100` only when the first
size is positive and `0` otherwise, and a detailed-timeline percentage is
null when the reference prior size is `0` and `delta/prior·100` when the
prior size is positive. -/
theorem variation_zero_division_guards (g : List Record) (s : LesionSummary)
    (hs : analyzeSingleLesion g = some s)
    (df : List Record) (e : DetailedEntry) (d : ℚ)
    (he : e ∈ createDetailedTimeline df) (hd : e.variacaoAbsoluta = some d) :
    ((0 < s.tamanhoInicial →
        s.variacaoTotalPct = (s.tamanhoFinal - s.tamanhoInicial) / s.tamanhoInicial * 100) ∧
      (¬ 0 < s.tamanhoInicial → s.variacaoTotalPct = 0)) ∧
    ∃ p ∈ df, p.lesaoId = e.lesaoId ∧ p.dataExame < e.dataExame ∧
      d = e.tamanhoCm - p.tamanhoCm ∧
      (p.tamanhoCm = 0 → e.variacaoPercentual = none) ∧
      (0 < p.tamanhoCm → e.variacaoPercentual = some (d / p.tamanhoCm * 100)) := by
  constructor
  · cases hsort : sortByDate g with
    | nil =>
      rw [analyzeSingleLesion, hsort] at hs
      exact absurd hs (by simp)
    | cons first rest =>
      rw [analyzeSingleLesion_eq hsort] at hs
      obtain rfl : _ = s := Option.some.injEq _ _ ▸ hs
      · constructor
        · intro hpos
          show (if first.tamanhoCm > 0 then _ else 0) = _
          rw [if_pos hpos]
        · intro hneg
          show (if first.tamanhoCm > 0 then _ else 0) = 0
          rw [if_neg hneg]
  · obtain ⟨row, hrow, rfl⟩ := mem_createDetailedTimeline he
    by_cases hex : ∃ q ∈ sortByDate (df.filter fun r => r.lesaoId = row.lesaoId),
        q.dataExame < row.dataExame
    · obtain ⟨p, hpG, hplt, _, habs, hpct⟩ :=
        mkDetailedEntry_prev hrow (sortByDate_sorted _) hex
      have hmemG := (sortByDate_perm (df.filter fun r => r.lesaoId = row.lesaoId)).mem_iff.mp hpG
      rw [List.mem_filter] at hmemG
      obtain ⟨hpdf, hpid⟩ := hmemG
      have hpid' : p.lesaoId = row.lesaoId := by simpa using hpid
      rw [habs] at hd
      obtain rfl : row.tamanhoCm - p.tamanhoCm = d := by simpa using hd
      refine ⟨p, hpdf, hpid', hplt, rfl, ?_, ?_⟩
      · intro hzero
        rw [hpct, if_neg (by rw [hzero]; exact lt_irrefl 0)]
      · intro hpos
        rw [hpct, if_pos hpos]
    · push_neg at hex
      have := (mkDetailedEntry_no_prev fun r hr => not_lt.mpr (hex r hr)).1
      rw [this] at hd
      exact absurd hd (by simp)

/-- Witness for C8: a lesion shrinking from size 4 to 2 has total variation
−50 % via the positive-first-size formula, and its second timeline entry
divides by the positive prior size 4. -/
theorem variation_zero_division_guards_witness :
    ((0 < (4 : ℚ) → (-50 : ℚ) = ((2 : ℚ) - 4) / 4 * 100) ∧
      (¬ 0 < (4 : ℚ) → (-50 : ℚ) = 0)) ∧
    ∃ p ∈ [(⟨"Nódulo 1", 0, 4, []⟩ : Record), (⟨"Nódulo 1", 1, 2, []⟩ : Record)],
      p.lesaoId = "Nódulo 1" ∧ p.dataExame < 1 ∧
      (-2 : ℚ) = 2 - p.tamanhoCm ∧
      (p.tamanhoCm = 0 → (some (-50 : ℚ) : Option ℚ) = none) ∧
      (0 < p.tamanhoCm →
        (some (-50 : ℚ) : Option ℚ) = some ((-2 : ℚ) / p.tamanhoCm * 100)) :=
  variation_zero_division_guards
    [(⟨"Nódulo 1", 0, 4, []⟩ : Record), (⟨"Nódulo 1", 1, 2, []⟩ : Record)]
    (⟨"Nódulo 1", 0, 4, 1, 2, -50, some (.reduziu (-50) false), 2,
      "Tendência de redução", 4, 2⟩ : LesionSummary)
    (by
      norm_num [analyzeSingleLesion, sortByDate, List.insertionSort, List.orderedInsert,
        dateLE, determineLesionStatus, variationThreshold, hasSurgicalTreatment,
        trendStats, qMean, centredSumSq, centredSumProd, List.getLast])
    [(⟨"Nódulo 1", 0, 4, []⟩ : Record), (⟨"Nódulo 1", 1, 2, []⟩ : Record)]
    (⟨"Nódulo 1", 1, 2, some (-2), some (-50), []⟩ : DetailedEntry) (-2)
    (by
      have h : createDetailedTimeline
          [(⟨"Nódulo 1", 0, 4, []⟩ : Record), (⟨"Nódulo 1", 1, 2, []⟩ : Record)] =
          [⟨"Nódulo 1", 0, 4, none, none, []⟩,
            ⟨"Nódulo 1", 1, 2, some (-2), some (-50), []⟩] := by
        norm_num [createDetailedTimeline, uniqueInOrder, sortByDate, List.insertionSort,
          List.orderedInsert, mkDetailedEntry, dateLE, List.filter]
      rw [h]
      simp)
    rfl

/-- Counterexample to C1 as stated: with input ids in order ["B", "A"], the
first-appearance order of canonical ids among the input records is
["B", "A"], but the summary rows come out as ["A", "B"] — the analyzer sorts
the frame by (lesion id, exam date) before grouping, so row order is sorted
id order, not input first-appearance order. -/
theorem summary_order_not_input_order :
    (analyze [(⟨"B", some 0, some 1, []⟩ : RawRecord),
        (⟨"A", some 1, some 2, []⟩ : RawRecord)]).summaryTable.map (·.lesao) = ["A", "B"] ∧
    uniqueInOrder ([(⟨"B", some 0, some 1, []⟩ : RawRecord),
        (⟨"A", some 1, some 2, []⟩ : RawRecord)].map (·.lesaoId)) = ["B", "A"] ∧
    (analyze [(⟨"B", some 0, some 1, []⟩ : RawRecord),
        (⟨"A", some 1, some 2, []⟩ : RawRecord)]).summaryTable.map (·.lesao) ≠
      uniqueInOrder ([(⟨"B", some 0, some 1, []⟩ : RawRecord),
        (⟨"A", some 1, some 2, []⟩ : RawRecord)].map (·.lesaoId)) := by
  have h1 : (analyze [(⟨"B", some 0, some 1, []⟩ : RawRecord),
      (⟨"A", some 1, some 2, []⟩ : RawRecord)]).summaryTable.map (·.lesao) = ["A", "B"] := by
    rw [analyze_summaryTable_ids]
    simp +decide [prepareDataframe, List.insertionSort, List.orderedInsert, recLE,
      String.lt_iff_toList_lt, uniqueInOrder]
  have h2 : uniqueInOrder ([(⟨"B", some 0, some 1, []⟩ : RawRecord),
      (⟨"A", some 1, some 2, []⟩ : RawRecord)].map (·.lesaoId)) = ["B", "A"] := by
    simp +decide [uniqueInOrder]
  refine ⟨h1, h2, ?_⟩
  rw [h1, h2]
  decide

/-- C1 (amended): the rows of the summary table appear in strictly
increasing (sorted) order of canonical lesion ids — the analyzer sorts by
(lesion id, exam date) before grouping, so row order is sorted id order
rather than input first-appearance order — and the max/min-variation lesion
names in the aggregate statistics break ties by first occurrence in that
summary ordering. -/
theorem summary_rows_sorted_and_extremum_ties (raw : List RawRecord) (s : OverallStats)
    (hs : (analyze raw).overallStatistics = some s) :
    ((analyze raw).summaryTable.map (·.lesao)).Pairwise (· < ·) ∧
    (∃ pre r post, (analyze raw).summaryTable = pre ++ r :: post ∧
      s.mostIncreasedLesion = some r.lesao ∧
      r.variacaoTotalPct = s.maxIncreasePct ∧
      (∀ q ∈ (analyze raw).summaryTable, q.variacaoTotalPct ≤ s.maxIncreasePct) ∧
      (∀ q ∈ pre, q.variacaoTotalPct ≠ s.maxIncreasePct)) ∧
    (∃ pre r post, (analyze raw).summaryTable = pre ++ r :: post ∧
      s.mostDecreasedLesion = some r.lesao ∧
      r.variacaoTotalPct = s.maxDecreasePct ∧
      (∀ q ∈ (analyze raw).summaryTable, s.maxDecreasePct ≤ q.variacaoTotalPct) ∧
      (∀ q ∈ pre, q.variacaoTotalPct ≠ s.maxDecreasePct)) := by
  refine ⟨?_, ?_⟩
  · rw [analyze_summaryTable_ids]
    exact pairwise_lt_uniqueInOrder _
      (List.Pairwise.map _ (fun a b h => recLE_lesaoId_le h) (prepareDataframe_sorted raw))
  have hcalc : calculateOverallStatistics (analyze raw).summaryTable = some s :=
    (analyze_stats_eq raw) ▸ hs
  cases hsum : (analyze raw).summaryTable with
  | nil =>
    rw [hsum] at hcalc
    simp [calculateOverallStatistics] at hcalc
  | cons s0 rest =>
    rw [hsum] at hcalc
    simp only [calculateOverallStatistics, Option.some.injEq] at hcalc
    obtain rfl := hcalc
    constructor
    · -- max part
      have hmem : ∃ q ∈ s0 :: rest,
          q.variacaoTotalPct =
            (rest.map (·.variacaoTotalPct)).foldl max s0.variacaoTotalPct := by
        rcases foldl_max_mem (rest.map (·.variacaoTotalPct)) s0.variacaoTotalPct with h | h
        · exact ⟨s0, List.mem_cons_self _ _, h.symm⟩
        · rw [List.mem_map] at h
          obtain ⟨q, hq, hqv⟩ := h
          exact ⟨q, List.mem_cons_of_mem _ hq, hqv⟩
      obtain ⟨q₀, hq₀, hq₀v⟩ := hmem
      obtain ⟨r, hfind⟩ : ∃ r, (s0 :: rest).find?
          (fun q => q.variacaoTotalPct =
            (rest.map (·.variacaoTotalPct)).foldl max s0.variacaoTotalPct) = some r := by
        rw [← Option.isSome_iff_exists, List.find?_isSome]
        exact ⟨q₀, hq₀, by simpa using hq₀v⟩
      obtain ⟨pre, post, hdec, hpr, hpre⟩ := find?_eq_some_first hfind
      refine ⟨pre, r, post, hdec, ?_, ?_, ?_, ?_⟩
      · show ((s0 :: rest).find? _).map (·.lesao) = some r.lesao
        rw [hfind]
        rfl
      · simpa using hpr
      · intro q hq
        rcases List.mem_cons.mp hq with rfl | hq'
        · exact le_foldl_max _ _ _ (Or.inl rfl)
        · exact le_foldl_max _ _ _ (Or.inr (List.mem_map_of_mem _ hq'))
      · intro q hq
        have := hpre q hq
        simpa using this
    · -- min part
      have hmem : ∃ q ∈ s0 :: rest,
          q.variacaoTotalPct =
            (rest.map (·.variacaoTotalPct)).foldl min s0.variacaoTotalPct := by
        rcases foldl_min_mem (rest.map (·.variacaoTotalPct)) s0.variacaoTotalPct with h | h
        · exact ⟨s0, List.mem_cons_self _ _, h.symm⟩
        · rw [List.mem_map] at h
          obtain ⟨q, hq, hqv⟩ := h
          exact ⟨q, List.mem_cons_of_mem _ hq, hqv⟩
      obtain ⟨q₀, hq₀, hq₀v⟩ := hmem
      obtain ⟨r, hfind⟩ : ∃ r, (s0 :: rest).find?
          (fun q => q.variacaoTotalPct =
            (rest.map (·.variacaoTotalPct)).foldl min s0.variacaoTotalPct) = some r := by
        rw [← Option.isSome_iff_exists, List.find?_isSome]
        exact ⟨q₀, hq₀, by simpa using hq₀v⟩
      obtain ⟨pre, post, hdec, hpr, hpre⟩ := find?_eq_some_first hfind
      refine ⟨pre, r, post, hdec, ?_, ?_, ?_, ?_⟩
      · show ((s0 :: rest).find? _).map (·.lesao) = some r.lesao
        rw [hfind]
        rfl
      · simpa using hpr
      · intro q hq
        rcases List.mem_cons.mp hq with rfl | hq'
        · exact foldl_min_le _ _ _ (Or.inl rfl)
        · exact foldl_min_le _ _ _ (Or.inr (List.mem_map_of_mem _ hq'))
      · intro q hq
        have := hpre q hq
        simpa using this

/-- Witness for the amended C1: a one-lesion analysis has sorted summary ids
and its extremum lesion names point at the first (only) summary row. -/
theorem summary_rows_sorted_and_extremum_ties_witness :
    ((analyze [(⟨"Lesão A", some 0, some 2, []⟩ : RawRecord)]).summaryTable.map
        (·.lesao)).Pairwise (· < ·) ∧
    (∃ pre r post,
      (analyze [(⟨"Lesão A", some 0, some 2, []⟩ : RawRecord)]).summaryTable =
        pre ++ r :: post ∧
      (some "Lesão A" : Option String) = some r.lesao ∧
      r.variacaoTotalPct = 0 ∧
      (∀ q ∈ (analyze [(⟨"Lesão A", some 0, some 2, []⟩ : RawRecord)]).summaryTable,
        q.variacaoTotalPct ≤ 0) ∧
      (∀ q ∈ pre, q.variacaoTotalPct ≠ 0)) ∧
    (∃ pre r post,
      (analyze [(⟨"Lesão A", some 0, some 2, []⟩ : RawRecord)]).summaryTable =
        pre ++ r :: post ∧
      (some "Lesão A" : Option String) = some r.lesao ∧
      r.variacaoTotalPct = 0 ∧
      (∀ q ∈ (analyze [(⟨"Lesão A", some 0, some 2, []⟩ : RawRecord)]).summaryTable,
        (0 : ℚ) ≤ q.variacaoTotalPct) ∧
      (∀ q ∈ pre, q.variacaoTotalPct ≠ 0)) :=
  summary_rows_sorted_and_extremum_ties [(⟨"Lesão A", some 0, some 2, []⟩ : RawRecord)]
    ⟨1, 0, 0, 1, 0, 0, 0, some "Lesão A", some "Lesão A"⟩
    (by
      norm_num [analyze, prepareDataframe, List.insertionSort, List.orderedInsert, recLE,
        uniqueInOrder, analyzeSingleLesion, sortByDate, dateLE, determineLesionStatus,
        variationThreshold, trendStats, qMean, calculateOverallStatistics, List.filter,
        List.filterMap])

end Oncosize
